import Mathlib

/-!
Shallow embedding of `src/data_processing.py` (skip-gram data pipeline) and
verification of its specification claims.

Randomness in the source (`torch.randint`, `torch.rand`) is modelled by
explicit oracle parameters: a natural-number stream `rand : ℕ → ℕ` for the
integer draws and a real stream `u : ℕ → ℝ` for the uniform draws in `[0,1)`.
`torch.randint 1 (w+1)` at raw draw `g` is modelled by `randint1 w g`, whose
range is exactly `[1, w]` for `w ≥ 1`.
-/

namespace DataProcessing

/-- Model of `torch.randint(1, window_size + 1, (1,))`: a value in
`[1, window_size]` obtained from the raw random draw `g`. -/
def randint1 (window_size g : ℕ) : ℕ :=
  1 + g % window_size

/-- The `start = max(0, idx - R)` bound of `get_target` (natural subtraction). -/
def t_start (idx R : ℕ) : ℕ :=
  idx - R

/-- The `end = min(len(words), idx + R + 1)` bound of `get_target`. -/
def t_stop (len idx R : ℕ) : ℕ :=
  min len (idx + R + 1)

/-- Embedding of `get_target` with the drawn window radius `R` made explicit:
collect `words[i]` for `i` in `range(start, end)` with `i != idx`. -/
def get_target {α : Type _} (words : List α) (idx R : ℕ) : List α :=
  ((List.range' (t_start idx R) (t_stop words.length idx R - t_start idx R)).filter
      (fun i => decide (i ≠ idx))).filterMap (fun i => words[i]?)

/-- One loop iteration of `get_batches`: for chunk `batch` starting at absolute
position `base`, build `inputs` (each centre repeated once per context word) and
`targets` (the context words), in loop order. -/
def chunk_pairs (batch : List ℤ) (window_size : ℕ) (rand : ℕ → ℕ) (base : ℕ) :
    List ℤ × List ℤ :=
  (((List.range batch.length).map fun i =>
      List.replicate (get_target batch i (randint1 window_size (rand (base + i)))).length
        (batch.getD i 0)).flatten,
   ((List.range batch.length).map fun i =>
      get_target batch i (randint1 window_size (rand (base + i)))).flatten)

/-- Number of iterations of `range(0, len, batch_size)` in Python,
i.e. the number of yielded batches. -/
def numBatches (len batch_size : ℕ) : ℕ :=
  (len + batch_size - 1) / batch_size

/-- Embedding of `get_batches`: the `k`-th yielded pair is built from the chunk
`words[k*batch_size : (k+1)*batch_size]`. -/
def get_batches (words : List ℤ) (batch_size window_size : ℕ) (rand : ℕ → ℕ) :
    List (List ℤ × List ℤ) :=
  (List.range (numBatches words.length batch_size)).map fun k =>
    chunk_pairs ((words.drop (k * batch_size)).take batch_size) window_size rand
      (k * batch_size)

/-- The chunks `words[idx : idx+batch_size]` visited by the `get_batches` loop. -/
def chunksOf (words : List ℤ) (batch_size : ℕ) : List (List ℤ) :=
  (List.range (numBatches words.length batch_size)).map fun k =>
    (words.drop (k * batch_size)).take batch_size

/-- Embedding of the validation-id selection in `cosine_similarity`:
`valid_size // 2` draws from `[0, valid_window)` concatenated with
`valid_size // 2` draws from `[valid_window, 2*valid_window)`;
`g1`, `g2` are the raw random streams. -/
def valid_examples (valid_size valid_window : ℕ) (g1 g2 : ℕ → ℕ) : List ℕ :=
  (List.range (valid_size / 2)).map (fun i => g1 i % valid_window) ++
    (List.range (valid_size / 2)).map (fun i => valid_window + g2 i % valid_window)

/-- Dot product of two embedding rows (`torch.mm` entry). -/
def dot (a b : List ℝ) : ℝ :=
  ((a.zip b).map fun p => p.1 * p.2).sum

/-- L2 norm of an embedding row (`embed_vectors.norm(dim=1)`). -/
noncomputable def row_norm (v : List ℝ) : ℝ :=
  Real.sqrt ((v.map fun x => x * x).sum)

/-- Row of `embed_norm = embed_vectors / embed_vectors.norm(dim=1, keepdim=True)`. -/
noncomputable def normalize_row (v : List ℝ) : List ℝ :=
  v.map fun x => x / row_norm v

/-- Entry `(vi, j)` of `torch.mm(valid_vectors, embed_norm.t())` in
`cosine_similarity`: the RAW row `vi` of the weight matrix (the code takes
`embed_vectors[valid_examples]`, not the normalized rows) dotted with the
normalized row `j`. -/
noncomputable def similarity_entry (W : List (List ℝ)) (vi j : ℕ) : ℝ :=
  dot (W.getD vi []) (normalize_row (W.getD j []))

lemma chunk_pairs_length_eq (batch : List ℤ) (window_size : ℕ) (rand : ℕ → ℕ)
    (base : ℕ) :
    (chunk_pairs batch window_size rand base).1.length
      = (chunk_pairs batch window_size rand base).2.length := by
  simp only [chunk_pairs, List.length_flatten, List.map_map]
  congr 1
  apply List.map_congr_left
  intro i _
  simp [Function.comp]

/-- C4: every pair yielded by `get_batches` has `inputs` and `targets` of equal
length, for any input list, `batch_size ≥ 1` and `window_size ≥ 1`. -/
theorem get_batches_inputs_targets_length (words : List ℤ)
    (batch_size window_size : ℕ) (rand : ℕ → ℕ)
    (hbs : 1 ≤ batch_size) (hws : 1 ≤ window_size) :
    ∀ p ∈ get_batches words batch_size window_size rand,
      p.1.length = p.2.length := by
  intro p hp
  simp only [get_batches, List.mem_map, List.mem_range] at hp
  obtain ⟨k, -, rfl⟩ := hp
  exact chunk_pairs_length_eq _ _ _ _

/-- Witness for C4 at `words = [1,2,3]`, `batch_size = 2`, `window_size = 1`. -/
theorem get_batches_inputs_targets_length_witness :
    ((get_batches [1, 2, 3] 2 1 (fun _ => 0)).getD 0 ([], [])).1.length
      = ((get_batches [1, 2, 3] 2 1 (fun _ => 0)).getD 0 ([], [])).2.length :=
  get_batches_inputs_targets_length [1, 2, 3] 2 1 (fun _ => 0)
    (by decide) (by decide) _ (by decide)

/-- C9: `get_batches` yields exactly `⌈len / batch_size⌉` pairs (in natural
number arithmetic, `(len + batch_size - 1) / batch_size`), and the empty input
yields no batches at all. -/
theorem get_batches_count (words : List ℤ) (batch_size window_size : ℕ)
    (rand : ℕ → ℕ) (hbs : 1 ≤ batch_size) :
    (get_batches words batch_size window_size rand).length
        = (words.length + batch_size - 1) / batch_size ∧
      (words = [] → get_batches words batch_size window_size rand = []) := by
  constructor
  · simp [get_batches, numBatches]
  · rintro rfl
    have h0 : (batch_size - 1) / batch_size = 0 :=
      Nat.div_eq_of_lt (by omega)
    simp [get_batches, numBatches, h0]

/-- Witness for C9 at `words = [1,2,3]`, `batch_size = 2`: two batches. -/
theorem get_batches_count_witness :
    (get_batches [1, 2, 3] 2 5 (fun _ => 0)).length = (3 + 2 - 1) / 2 ∧
      (([1, 2, 3] : List ℤ) = [] → get_batches [1, 2, 3] 2 5 (fun _ => 0) = []) :=
  get_batches_count [1, 2, 3] 2 5 (fun _ => 0) (by decide)

/-- C10: for odd `valid_size` the id selection of `cosine_similarity` succeeds
(no evenness check) and silently picks `valid_size - 1 = 2 * (valid_size // 2)`
ids, all lying in `[0, 2*valid_window)`. -/
theorem valid_examples_odd_size (valid_size valid_window : ℕ) (g1 g2 : ℕ → ℕ)
    (hodd : valid_size % 2 = 1) (hw : 1 ≤ valid_window) :
    (valid_examples valid_size valid_window g1 g2).length = valid_size - 1 ∧
      valid_size - 1 = 2 * (valid_size / 2) ∧
      ∃ lo hi, valid_examples valid_size valid_window g1 g2 = lo ++ hi ∧
        lo.length = valid_size / 2 ∧ hi.length = valid_size / 2 ∧
        (∀ x ∈ lo, x < valid_window) ∧
        (∀ x ∈ hi, valid_window ≤ x ∧ x < 2 * valid_window) := by
  refine ⟨?_, by omega, ?_⟩
  · simp only [valid_examples, List.length_append, List.length_map,
      List.length_range]
    omega
  · refine ⟨(List.range (valid_size / 2)).map (fun i => g1 i % valid_window),
      (List.range (valid_size / 2)).map
        (fun i => valid_window + g2 i % valid_window),
      rfl, by simp, by simp, ?_, ?_⟩
    · intro x hx
      simp only [List.mem_map, List.mem_range] at hx
      obtain ⟨i, -, rfl⟩ := hx
      exact Nat.mod_lt (g1 i) hw
    · intro x hx
      simp only [List.mem_map, List.mem_range] at hx
      obtain ⟨i, -, rfl⟩ := hx
      have := Nat.mod_lt (g2 i) hw
      omega

/-- Witness for C10 at `valid_size = 3`, `valid_window = 1`: 2 ids selected. -/
theorem valid_examples_odd_size_witness :
    (valid_examples 3 1 (fun _ => 0) (fun _ => 0)).length = 3 - 1 ∧
      3 - 1 = 2 * (3 / 2) := by
  have h := valid_examples_odd_size 3 1 (fun _ => 0) (fun _ => 0)
    (by decide) (by decide)
  exact ⟨h.1, h.2.1⟩

lemma filterMap_getElem_range' {α : Type _} (words : List α) :
    ∀ (n a : ℕ), a + n ≤ words.length →
      (List.range' a n).filterMap (fun i => words[i]?) = (words.drop a).take n := by
  intro n
  induction n with
  | zero => intro a h; simp
  | succ m ih =>
    intro a h
    have ha : a < words.length := by omega
    rw [List.range'_succ, List.filterMap_cons, List.getElem?_eq_getElem ha,
      List.drop_eq_getElem_cons ha, List.take_succ_cons, ih (a + 1) (by omega)]

lemma filter_range'_filterMap_slice {α : Type _} (words : List α) (a b idx : ℕ)
    (h1 : a ≤ idx) (h2 : idx < b) (h3 : b ≤ words.length) :
    ((List.range' a (b - a)).filter (fun i => decide (i ≠ idx))).filterMap
        (fun i => words[i]?)
      = ((words.drop a).take (b - a)).eraseIdx (idx - a) := by
  have hrange : List.range' a (b - a)
      = List.range' a (idx - a) ++ idx :: List.range' (idx + 1) (b - idx - 1) := by
    have e1 : b - a = (b - idx) + (idx - a) := by omega
    have e2 : a + 1 * (idx - a) = idx := by omega
    have e3 : b - idx = (b - idx - 1) + 1 := by omega
    rw [e1, ← List.range'_append a (idx - a) (b - idx) 1, e2, e3, List.range'_succ]
    simp
  have hf1 : (List.range' a (idx - a)).filter (fun i => decide (i ≠ idx))
      = List.range' a (idx - a) := by
    apply List.filter_eq_self.mpr
    intro i hi
    rw [List.mem_range'_1] at hi
    simp only [decide_eq_true_eq]
    omega
  have hf2 : (List.range' (idx + 1) (b - idx - 1)).filter (fun i => decide (i ≠ idx))
      = List.range' (idx + 1) (b - idx - 1) := by
    apply List.filter_eq_self.mpr
    intro i hi
    rw [List.mem_range'_1] at hi
    simp only [decide_eq_true_eq]
    omega
  rw [hrange, List.filter_append, hf1, List.filter_cons_of_neg (by simp), hf2,
    List.filterMap_append, filterMap_getElem_range' words (idx - a) a (by omega),
    filterMap_getElem_range' words (b - idx - 1) (idx + 1) (by omega),
    List.eraseIdx_eq_take_drop_succ, List.take_take,
    inf_eq_left.mpr (show idx - a ≤ b - a by omega), List.drop_take, List.drop_drop,
    show a + (idx - a + 1) = idx + 1 from by omega,
    show b - a - (idx - a + 1) = b - idx - 1 from by omega]

lemma get_target_eq_eraseIdx {α : Type _} (words : List α) (idx R : ℕ)
    (hidx : idx < words.length) :
    get_target words idx R
      = ((words.drop (t_start idx R)).take
            (t_stop words.length idx R - t_start idx R)).eraseIdx
          (idx - t_start idx R) := by
  unfold get_target
  apply filter_range'_filterMap_slice
  · unfold t_start
    omega
  · unfold t_stop
    omega
  · unfold t_stop
    omega

/-- C6: for any in-range index and `window_size ≥ 1`, the drawn radius
`R = randint1 window_size g` lies in `[1, window_size]`; `get_target` returns
exactly the items of the slice `[start, end)` with the item at `idx` removed
(left-to-right order), where `start = max(0, idx - R)` and
`end = min(len, idx + R + 1)`; the output length is `end - start - 1` and is at
most `2 * window_size`. -/
theorem get_target_window_spec {α : Type _} (words : List α)
    (idx window_size g : ℕ) (hidx : idx < words.length) (hws : 1 ≤ window_size) :
    (1 ≤ randint1 window_size g ∧ randint1 window_size g ≤ window_size) ∧
      get_target words idx (randint1 window_size g)
        = ((words.drop (t_start idx (randint1 window_size g))).take
              (t_stop words.length idx (randint1 window_size g)
                - t_start idx (randint1 window_size g))).eraseIdx
            (idx - t_start idx (randint1 window_size g)) ∧
      (get_target words idx (randint1 window_size g)).length
        = t_stop words.length idx (randint1 window_size g)
            - t_start idx (randint1 window_size g) - 1 ∧
      (get_target words idx (randint1 window_size g)).length ≤ 2 * window_size := by
  have hmod := Nat.mod_lt g hws
  set R := randint1 window_size g with hR
  have hR1 : 1 ≤ R := by
    rw [hR]
    unfold randint1
    omega
  have hR2 : R ≤ window_size := by
    rw [hR]
    unfold randint1
    omega
  have heq := get_target_eq_eraseIdx words idx R hidx
  have hlen : (get_target words idx R).length
      = t_stop words.length idx R - t_start idx R - 1 := by
    rw [heq, List.length_eraseIdx]
    simp only [List.length_take, List.length_drop]
    unfold t_start t_stop
    rw [if_pos (by omega)]
    omega
  refine ⟨⟨hR1, hR2⟩, heq, hlen, ?_⟩
  rw [hlen]
  unfold t_start t_stop
  omega

/-- Witness for C6 at `words = [10,20,30]`, `idx = 1`, `window_size = 1`,
raw draw `g = 0` (hence `R = 1`). -/
theorem get_target_window_spec_witness :
    (1 ≤ randint1 1 0 ∧ randint1 1 0 ≤ 1) ∧
      get_target ([10, 20, 30] : List ℤ) 1 (randint1 1 0)
        = ((([10, 20, 30] : List ℤ).drop (t_start 1 (randint1 1 0))).take
              (t_stop ([10, 20, 30] : List ℤ).length 1 (randint1 1 0)
                - t_start 1 (randint1 1 0))).eraseIdx
            (1 - t_start 1 (randint1 1 0)) ∧
      (get_target ([10, 20, 30] : List ℤ) 1 (randint1 1 0)).length
        = t_stop ([10, 20, 30] : List ℤ).length 1 (randint1 1 0)
            - t_start 1 (randint1 1 0) - 1 ∧
      (get_target ([10, 20, 30] : List ℤ) 1 (randint1 1 0)).length ≤ 2 * 1 :=
  get_target_window_spec ([10, 20, 30] : List ℤ) 1 1 0 (by decide) (by decide)

lemma mem_of_mem_get_target {α : Type _} {x : α} {batch : List α} {i R : ℕ}
    (hx : x ∈ get_target batch i R) : x ∈ batch := by
  unfold get_target at hx
  rw [List.mem_filterMap] at hx
  obtain ⟨j, -, hj⟩ := hx
  exact List.getElem?_mem hj

lemma chunk_pairs_targets_mem (batch : List ℤ) (window_size : ℕ) (rand : ℕ → ℕ)
    (base : ℕ) :
    ∀ x ∈ (chunk_pairs batch window_size rand base).2, x ∈ batch := by
  intro x hx
  simp only [chunk_pairs, List.mem_flatten, List.mem_map, List.mem_range] at hx
  obtain ⟨l, ⟨i, -, rfl⟩, hxl⟩ := hx
  exact mem_of_mem_get_target hxl

lemma numBatches_succ (len batch_size : ℕ) (hbs : 1 ≤ batch_size) (hlen : 1 ≤ len) :
    numBatches len batch_size = numBatches (len - batch_size) batch_size + 1 := by
  unfold numBatches
  rcases le_or_lt len batch_size with h | h
  · have hz : len - batch_size = 0 := by omega
    rw [hz]
    simp only [Nat.zero_add]
    rw [Nat.div_eq_of_lt (show batch_size - 1 < batch_size by omega),
      Nat.div_eq_of_lt_le (show 1 * batch_size ≤ len + batch_size - 1 by omega)
        (show len + batch_size - 1 < (1 + 1) * batch_size by omega)]
  · rw [show len + batch_size - 1 = (len - batch_size + batch_size - 1) + batch_size
        from by omega,
      Nat.add_div_right _ (by omega)]

lemma chunksOf_cons (words : List ℤ) (batch_size : ℕ) (hbs : 1 ≤ batch_size)
    (hne : words ≠ []) :
    chunksOf words batch_size
      = words.take batch_size :: chunksOf (words.drop batch_size) batch_size := by
  have hlen : 1 ≤ words.length := by
    cases words
    · simp at hne
    · simp
  unfold chunksOf
  rw [List.length_drop, numBatches_succ words.length batch_size hbs hlen,
    List.range_succ_eq_map, List.map_cons, List.map_map]
  simp only [Nat.zero_mul, List.drop_zero]
  congr 1
  apply List.map_congr_left
  intro k _
  simp only [Function.comp_apply]
  rw [List.drop_drop, Nat.succ_mul]
  congr 2
  omega

lemma chunksOf_flatten (batch_size : ℕ) (hbs : 1 ≤ batch_size) :
    ∀ (words : List ℤ), (chunksOf words batch_size).flatten = words := by
  have H : ∀ (n : ℕ) (words : List ℤ), words.length = n →
      (chunksOf words batch_size).flatten = words := by
    intro n
    induction n using Nat.strong_induction_on with
    | _ n ih =>
      intro words hw
      rcases eq_or_ne words [] with rfl | hne
      · simp [chunksOf, numBatches,
          Nat.div_eq_of_lt (show batch_size - 1 < batch_size by omega)]
      · have hlen : 1 ≤ words.length := by
          cases words
          · simp at hne
          · simp
        rw [chunksOf_cons words batch_size hbs hne, List.flatten_cons,
          ih (words.drop batch_size).length
            (by rw [← hw, List.length_drop]; omega) _ rfl,
          List.take_append_drop]
  intro words
  exact H words.length words rfl

/-- C3: `get_batches` processes the input as consecutive chunks of length
`batch_size` (the final shorter chunk included, since the chunks concatenate
back to the input), each yielded pair is `chunk_pairs` of its own chunk with
`get_target` applied to the chunk itself, every context item of a pair belongs
to its chunk (no boundary crossing), and a 10-element input with
`batch_size = 4` yields exactly three batches from chunks of lengths 4, 4, 2. -/
theorem get_batches_chunk_partition (words : List ℤ) (batch_size window_size : ℕ)
    (rand : ℕ → ℕ) (hbs : 1 ≤ batch_size) (hws : 1 ≤ window_size) :
    (chunksOf words batch_size).flatten = words ∧
      (∀ k, k < numBatches words.length batch_size →
        (get_batches words batch_size window_size rand)[k]?
          = some (chunk_pairs ((chunksOf words batch_size).getD k []) window_size
              rand (k * batch_size))) ∧
      (∀ k, ∀ x ∈ (chunk_pairs ((words.drop (k * batch_size)).take batch_size)
            window_size rand (k * batch_size)).2,
          x ∈ (words.drop (k * batch_size)).take batch_size) ∧
      (words.length = 10 → batch_size = 4 →
        (get_batches words batch_size window_size rand).length = 3 ∧
          (chunksOf words batch_size).map List.length = [4, 4, 2]) := by
  refine ⟨chunksOf_flatten batch_size hbs words, ?_, ?_, ?_⟩
  · intro k hk
    have hc : (chunksOf words batch_size).getD k []
        = (words.drop (k * batch_size)).take batch_size := by
      rw [chunksOf, List.getD_eq_getElem?_getD, List.getElem?_map,
        List.getElem?_range hk]
      rfl
    rw [hc, get_batches, List.getElem?_map, List.getElem?_range hk]
    rfl
  · intro k
    exact chunk_pairs_targets_mem _ window_size rand _
  · intro h10 hb4
    subst hb4
    constructor
    · simp only [get_batches, List.length_map, List.length_range]
      rw [h10]
      rfl
    · unfold chunksOf
      rw [h10, show numBatches 10 4 = 3 from rfl,
        show List.range 3 = [0, 1, 2] from rfl]
      simp only [List.map_cons, List.map_nil, List.length_take, List.length_drop,
        h10]
      decide

/-- Witness for C3 at the 10-element input `[0,…,9]` with `batch_size = 4`:
the chunks concatenate back to the input, three batches are yielded, and the
chunk lengths are 4, 4, 2. -/
theorem get_batches_chunk_partition_witness :
    (chunksOf [0, 1, 2, 3, 4, 5, 6, 7, 8, 9] 4).flatten
        = [0, 1, 2, 3, 4, 5, 6, 7, 8, 9] ∧
      (get_batches [0, 1, 2, 3, 4, 5, 6, 7, 8, 9] 4 1 (fun _ => 0)).length = 3 ∧
      (chunksOf [0, 1, 2, 3, 4, 5, 6, 7, 8, 9] 4).map List.length = [4, 4, 2] := by
  have h := get_batches_chunk_partition [0, 1, 2, 3, 4, 5, 6, 7, 8, 9] 4 1
    (fun _ => 0) (by decide) (by decide)
  exact ⟨h.1, (h.2.2.2 (by decide) rfl).1, (h.2.2.2 (by decide) rfl).2⟩

/-- Distinct words of a list in first-seen order: the key order of
`Counter(words)`. -/
def uniqueFirst : List String → List String
  | [] => []
  | w :: ws => w :: (uniqueFirst ws).filter (fun v => decide (v ≠ w))

/-- The descending-count order used by `Counter.most_common()`. -/
def countGE (words : List String) (a b : String) : Prop :=
  words.count b ≤ words.count a

instance (words : List String) : DecidableRel (countGE words) :=
  fun a b => inferInstanceAs (Decidable (words.count b ≤ words.count a))

instance (words : List String) : IsTotal String (countGE words) :=
  ⟨fun a b => le_total (words.count b) (words.count a)⟩

instance (words : List String) : IsTrans String (countGE words) :=
  ⟨fun _ _ _ h1 h2 => le_trans h2 h1⟩

/-- Embedding of `sorted_vocab` in `create_lookup_tables`: the distinct words
sorted from most to least frequent (`most_common`). -/
def sorted_vocab (words : List String) : List String :=
  List.insertionSort (countGE words) (uniqueFirst words)

/-- The dictionary `vocab_to_int = {word: i for i, word in int_to_vocab.items()}`:
every distinct word maps to its position in `sorted_vocab`. -/
def vocab_to_int (words : List String) (w : String) : ℕ :=
  (sorted_vocab words).indexOf w

/-- The dictionary `int_to_vocab = {i: word for i, word in enumerate(sorted_vocab)}`. -/
def int_to_vocab (words : List String) (i : ℕ) : Option String :=
  (sorted_vocab words)[i]?

lemma mem_uniqueFirst (x : String) (l : List String) :
    x ∈ uniqueFirst l ↔ x ∈ l := by
  induction l with
  | nil => simp [uniqueFirst]
  | cons w ws ih =>
    simp only [uniqueFirst, List.mem_cons, List.mem_filter, ih,
      decide_eq_true_eq]
    by_cases hxw : x = w
    · simp [hxw]
    · simp [hxw]

lemma nodup_uniqueFirst (l : List String) : (uniqueFirst l).Nodup := by
  induction l with
  | nil => simp [uniqueFirst]
  | cons w ws ih =>
    rw [uniqueFirst, List.nodup_cons]
    constructor
    · intro hmem
      rcases List.mem_filter.mp hmem with ⟨-, hq⟩
      simp at hq
    · exact ih.filter _

/-- C5: `create_lookup_tables` produces a duplicate-free id order whose length
is the number of distinct tokens (so both dictionaries have that size), the
two dictionaries are mutually inverse (`int_to_vocab[vocab_to_int[w]] = w` for
every word of the input and conversely every id in range has exactly one word),
and id 0 maps to a token of maximal occurrence count. -/
theorem create_lookup_tables_spec (words : List String) (hne : words ≠ []) :
    (sorted_vocab words).Nodup ∧
      (sorted_vocab words).length = words.toFinset.card ∧
      (∀ w ∈ words, int_to_vocab words (vocab_to_int words w) = some w) ∧
      (∀ i, ∀ hi : i < (sorted_vocab words).length,
        ∃ w, int_to_vocab words i = some w ∧ vocab_to_int words w = i) ∧
      ∃ hd, int_to_vocab words 0 = some hd ∧
        ∀ w ∈ words, words.count w ≤ words.count hd := by
  have hperm := List.perm_insertionSort (countGE words) (uniqueFirst words)
  have hnodup : (sorted_vocab words).Nodup :=
    hperm.nodup_iff.mpr (nodup_uniqueFirst words)
  have hmem : ∀ x, x ∈ sorted_vocab words ↔ x ∈ words := by
    intro x
    rw [sorted_vocab, hperm.mem_iff, mem_uniqueFirst]
  have hfin : (sorted_vocab words).toFinset = words.toFinset := by
    ext x
    simp [List.mem_toFinset, hmem x]
  refine ⟨hnodup, ?_, ?_, ?_, ?_⟩
  · rw [← hfin, List.toFinset_card_of_nodup hnodup]
  · intro w hw
    have hm : w ∈ sorted_vocab words := (hmem w).mpr hw
    have hlt : (sorted_vocab words).indexOf w < (sorted_vocab words).length :=
      List.indexOf_lt_length.mpr hm
    rw [int_to_vocab, vocab_to_int, List.getElem?_eq_getElem hlt,
      List.getElem_indexOf hlt]
  · intro i hi
    have hm : (sorted_vocab words).get ⟨i, hi⟩ ∈ sorted_vocab words :=
      List.get_mem _ i hi
    have hlt : (sorted_vocab words).indexOf ((sorted_vocab words).get ⟨i, hi⟩)
        < (sorted_vocab words).length := List.indexOf_lt_length.mpr hm
    refine ⟨(sorted_vocab words).get ⟨i, hi⟩, ?_, ?_⟩
    · rw [int_to_vocab, List.getElem?_eq_getElem hi, List.get_eq_getElem]
    · rw [vocab_to_int]
      have heq2 : (sorted_vocab words)[(sorted_vocab words).indexOf
            ((sorted_vocab words).get ⟨i, hi⟩)]
          = (sorted_vocab words)[i] := List.getElem_indexOf hlt
      exact (List.Nodup.getElem_inj_iff hnodup).mp heq2
  · obtain ⟨w0, hw0⟩ : ∃ w0, w0 ∈ words := by
      cases words with
      | nil => simp at hne
      | cons a l => exact ⟨a, by simp⟩
    have hsorted : List.Sorted (countGE words) (sorted_vocab words) :=
      List.sorted_insertionSort _ _
    rcases hsv : sorted_vocab words with _ | ⟨hd, tl⟩
    · have hm0 : w0 ∈ sorted_vocab words := (hmem w0).mpr hw0
      rw [hsv] at hm0
      simp at hm0
    · refine ⟨hd, ?_, ?_⟩
      · rw [int_to_vocab, hsv]
        simp
      · intro w hw
        have hmw : w ∈ sorted_vocab words := (hmem w).mpr hw
        rw [hsv] at hmw hsorted
        rcases List.mem_cons.mp hmw with rfl | hmem2
        · exact le_refl _
        · exact (List.sorted_cons.mp hsorted).1 w hmem2

/-- Witness for C5 at `words = ["a","b","a"]`. -/
theorem create_lookup_tables_spec_witness :
    (sorted_vocab ["a", "b", "a"]).Nodup ∧
      (sorted_vocab ["a", "b", "a"]).length
          = (["a", "b", "a"] : List String).toFinset.card ∧
      int_to_vocab ["a", "b", "a"] (vocab_to_int ["a", "b", "a"] "a")
          = some "a" := by
  have h := create_lookup_tables_spec ["a", "b", "a"] (by simp)
  exact ⟨h.1, h.2.1, h.2.2.1 "a" (by simp)⟩

/-- Per-id relative frequency of `subsample_words`:
`freqs[id] = word_counts[id] / total_count`. -/
noncomputable def word_freq (int_words : List ℕ) (id : ℕ) : ℝ :=
  (int_words.count id : ℝ) / (int_words.length : ℝ)

/-- The discard probability of `subsample_words`:
`probs = 1 - torch.sqrt(threshold / (freqs + 1e-10))`. -/
noncomputable def p_discard (threshold f : ℝ) : ℝ :=
  1 - Real.sqrt (threshold / (f + 1e-10))

/-- Embedding of `[vocab_to_int[word] for word in words]`; `none` models the
`KeyError` raised when a word is not a key of the dictionary (modelled as an
association list). -/
def encode_words (vocab : List (String × ℕ)) : List String → Option (List ℕ)
  | [] => some []
  | w :: ws =>
    match List.lookup w vocab, encode_words vocab ws with
    | some id, some ids => some (id :: ids)
    | _, _ => none

open Classical in
/-- The filter `train_words = int_words[keep_prob > probs[int_words]]`:
position `p` of the encoded sequence survives iff its uniform draw `u p`
exceeds the discard probability of its id. -/
noncomputable def train_words (int_words : List ℕ) (threshold : ℝ) (u : ℕ → ℝ) :
    List ℕ :=
  ((int_words.enum).filter (fun p =>
      decide (p_discard threshold (word_freq int_words p.2) < u p.1))).map
    Prod.snd

/-- Embedding of `subsample_words`: encode every word, then filter; `none` is
the `KeyError` on a word missing from `vocab_to_int`. -/
noncomputable def subsample_words (vocab : List (String × ℕ))
    (words : List String) (threshold : ℝ) (u : ℕ → ℝ) : Option (List ℕ) :=
  (encode_words vocab words).map (fun iw => train_words iw threshold u)

/-- Counterexample to C2 as stated: an id whose relative frequency exactly
equals the threshold has discard probability `1 - sqrt(t/(t+1e-10))`, which is
NOT `0` (the `1e-10` guard makes the square root strictly less than one). -/
theorem p_discard_at_threshold_ne_zero :
    word_freq [0] 0 = 1 ∧ p_discard 1 (word_freq [0] 0) ≠ 0 := by
  have hf : word_freq [0] 0 = 1 := by
    unfold word_freq
    norm_num
  refine ⟨hf, ?_⟩
  rw [hf]
  unfold p_discard
  have hlt : (1 : ℝ) / (1 + 1e-10) < 1 := by
    rw [div_lt_one (by norm_num)]
    norm_num
  have hs : Real.sqrt ((1 : ℝ) / (1 + 1e-10)) < 1 :=
    (Real.sqrt_lt' one_pos).mpr (by rw [one_pow]; exact hlt)
  intro h0
  linarith

/-- C2 amended: for any positive threshold, an id whose relative frequency
exactly equals the threshold gets a STRICTLY POSITIVE (though tiny) discard
probability `1 - sqrt(t/(t+1e-10))`, so such a token can still be discarded at
the boundary. -/
theorem p_discard_at_threshold_pos (int_words : List ℕ) (id : ℕ) (t : ℝ)
    (ht : 0 < t) (hf : word_freq int_words id = t) :
    0 < p_discard t (word_freq int_words id) := by
  rw [hf]
  unfold p_discard
  have heps : (0 : ℝ) < 1e-10 := by norm_num
  have hlt : t / (t + 1e-10) < 1 := by
    rw [div_lt_one (by linarith)]
    linarith
  have hs : Real.sqrt (t / (t + 1e-10)) < 1 :=
    (Real.sqrt_lt' one_pos).mpr (by rw [one_pow]; exact hlt)
  linarith

/-- Witness for the amended C2 at the one-token sequence `[0]`, whose id `0`
has frequency `1`, with threshold `1`. -/
theorem p_discard_at_threshold_pos_witness :
    0 < p_discard 1 (word_freq [0] 0) :=
  p_discard_at_threshold_pos [0] 0 1 (by norm_num)
    (by unfold word_freq; norm_num)

lemma encode_words_length (vocab : List (String × ℕ)) :
    ∀ (words : List String) (int_words : List ℕ),
      encode_words vocab words = some int_words →
        int_words.length = words.length := by
  intro words
  induction words with
  | nil =>
    intro iw h
    simp only [encode_words, Option.some.injEq] at h
    rw [← h]
    rfl
  | cons a as ih =>
    intro iw h
    cases hl : List.lookup a vocab with
    | none => simp [encode_words, hl] at h
    | some id =>
      cases he : encode_words vocab as with
      | none => simp [encode_words, hl, he] at h
      | some ids =>
        simp only [encode_words, hl, he, Option.some.injEq] at h
        rw [← h]
        simp [ih ids he]

/-- C7: for a covered word list, the subsampled encoded sequence is a sublist
of the id-encoded input — it keeps the surviving ids in their original
relative order — and its length is at most the input length. -/
theorem subsample_words_sublist (vocab : List (String × ℕ))
    (words : List String) (threshold : ℝ) (u : ℕ → ℝ) (int_words : List ℕ)
    (henc : encode_words vocab words = some int_words) :
    (train_words int_words threshold u).Sublist int_words ∧
      (train_words int_words threshold u).length ≤ words.length := by
  have hsub : (train_words int_words threshold u).Sublist int_words := by
    have h1 := (List.filter_sublist (l := int_words.enum)
      (p := fun p =>
        decide (p_discard threshold (word_freq int_words p.2) < u p.1))).map
      Prod.snd
    rw [List.enum_map_snd] at h1
    exact h1
  refine ⟨hsub, le_trans hsub.length_le ?_⟩
  rw [encode_words_length vocab words int_words henc]

/-- Witness for C7 at `vocab = [("a",0)]`, `words = ["a"]`, threshold `1`,
uniform draws all `1`. -/
theorem subsample_words_sublist_witness :
    (train_words [0] 1 (fun _ => 1)).Sublist [0] ∧
      (train_words [0] 1 (fun _ => 1)).length
          ≤ (["a"] : List String).length :=
  subsample_words_sublist [("a", 0)] ["a"] 1 (fun _ => 1) [0] (by decide)

lemma encode_words_eq_none (vocab : List (String × ℕ)) :
    ∀ (words : List String), (∃ w ∈ words, List.lookup w vocab = none) →
      encode_words vocab words = none := by
  intro words
  induction words with
  | nil =>
    rintro ⟨w, hw, -⟩
    simp at hw
  | cons a as ih =>
    rintro ⟨w, hw, hnone⟩
    rcases List.mem_cons.mp hw with rfl | hmem
    · simp [encode_words, hnone]
    · have he : encode_words vocab as = none := ih ⟨w, hmem, hnone⟩
      cases hl : List.lookup a vocab <;> simp [encode_words, hl, he]

lemma encode_words_isSome (vocab : List (String × ℕ)) :
    ∀ (words : List String),
      (∀ w ∈ words, (List.lookup w vocab).isSome = true) →
        (encode_words vocab words).isSome = true := by
  intro words
  induction words with
  | nil => intro _; simp [encode_words]
  | cons a as ih =>
    intro hcov
    obtain ⟨id, hid⟩ := Option.isSome_iff_exists.mp (hcov a (by simp))
    have hs := ih fun w hw => hcov w (by simp [hw])
    obtain ⟨ids, hids⟩ := Option.isSome_iff_exists.mp hs
    simp [encode_words, hid, hids]

/-- C8: the subsampler propagates the `KeyError`: if any word of the input is
missing from `vocab_to_int` the result is the failure value `none`, and it is
a success value exactly when the vocabulary covers every word. -/
theorem subsample_words_missing_key (vocab : List (String × ℕ))
    (words : List String) (threshold : ℝ) (u : ℕ → ℝ) :
    ((∃ w ∈ words, List.lookup w vocab = none) →
        subsample_words vocab words threshold u = none) ∧
      ((∀ w ∈ words, (List.lookup w vocab).isSome = true) →
        (subsample_words vocab words threshold u).isSome = true) := by
  constructor
  · intro hmiss
    rw [subsample_words, encode_words_eq_none vocab words hmiss]
    rfl
  · intro hcov
    have hs := encode_words_isSome vocab words hcov
    obtain ⟨iw, hiw⟩ := Option.isSome_iff_exists.mp hs
    rw [subsample_words, hiw]
    rfl

/-- Witness for C8: with vocabulary `[("a",0)]` the input `["b"]` makes
`subsample_words` fail. -/
theorem subsample_words_missing_key_witness :
    subsample_words [("a", 0)] ["b"] 1 (fun _ => 1) = none :=
  (subsample_words_missing_key [("a", 0)] ["b"] 1 (fun _ => 1)).1
    ⟨"b", by simp, by decide⟩

/-- C1: evaluation of the failing input. For the weight matrix
`[[2,0],[0,1]]`, the code's similarity of validation id `0` with vocabulary
id `0` (itself) is `2` — the L2 norm of the raw validation row — not `1`,
because `cosine_similarity` multiplies the UN-normalized validation rows
(`embed_vectors[valid_examples]`) with the normalized matrix. -/
theorem similarity_entry_self_not_one :
    similarity_entry [[2, 0], [0, 1]] 0 0 = 2 ∧ (2 : ℝ) ≠ 1 := by
  refine ⟨?_, by norm_num⟩
  have hn : row_norm ([2, 0] : List ℝ) = 2 := by
    have h4 : (([2, 0] : List ℝ).map fun x => x * x).sum = 4 := by
      norm_num
    unfold row_norm
    rw [h4, show (4 : ℝ) = 2 ^ 2 from by norm_num, Real.sqrt_sq (by norm_num)]
  unfold similarity_entry normalize_row dot
  simp only [List.getD_cons_zero, hn]
  norm_num

end DataProcessing
